import Mathlib


/-
Verification of `inference/pdf_tools.py` (C-bowman/inference_tools).

The Python module is shallowly embedded below.  Sample values and all exact
arithmetic are modelled over `ℚ` where the corresponding code is plain
arithmetic, comparisons, sorting and indexing; genuinely transcendental
computations (`exp`, `log`, `cos`, `tanh`, real powers) are modelled over `ℝ`.
`numpy` indexing that is proved in-bounds is modelled with `List.getD` and a
default value.  Stochastic external calls (`scipy.optimize.differential_evolution`)
are modelled by an explicit parameter holding the optimizer's output vector.
-/

/-! ## Generic helpers for the embedding -/

/-- Python `int(x)` applied to a (modelled-exact) float: truncation toward zero. -/
def pyInt (x : ℚ) : ℤ := if 0 ≤ x then ⌊x⌋ else ⌈x⌉

/-- `numpy.sort`: the sorted copy of a sample.  (The sorted permutation of a
list over a linear order is unique, so any correct sort models `numpy.sort`.) -/
def sortQ (l : List ℚ) : List ℚ := l.insertionSort (· ≤ ·)

/-- `numpy.argmin`: index of the first occurrence of the minimal value. -/
def listArgmin : List ℚ → ℕ
  | [] => 0
  | a :: t => if t.getD (listArgmin t) 0 < a ∧ t ≠ [] then listArgmin t + 1 else 0

/-! ## `sample_hdi` and `dbl_interval_length` (pdf_tools.py, lines 618-721) -/

/-- `L = int(fraction * n)` as computed in `sample_hdi` and
`dbl_interval_length.__init__`. -/
def hdiL (fraction : ℚ) (n : ℕ) : ℕ := (pyInt (fraction * n)).toNat

/-- `widths = s[L:] - s[:n-L]` for the sorted sample `s`. -/
def hdiWidths (s : List ℚ) (L : ℕ) : List ℚ :=
  (List.range (s.length - L)).map (fun j => s.getD (j + L) 0 - s.getD j 0)

/-- `i = widths.argmin()`. -/
def hdiIdx (s : List ℚ) (L : ℕ) : ℕ := listArgmin (hdiWidths s L)

/-- The optimal single interval `r1 = (s[i], s[i+L])`. -/
def hdiSingle (s : List ℚ) (L : ℕ) : ℚ × ℚ :=
  (s.getD (hdiIdx s L) 0, s.getD (hdiIdx s L + L) 0)

/-- `dbl_interval_length.return_intervals`, applied to the output vector
`paras = (f1, start, gap)` of `differential_evolution` (the optimizer is an
external stochastic routine, so its output is a parameter of the model). -/
def dblReturnIntervals (sample : List ℚ) (fraction : ℚ) (paras : ℚ × ℚ × ℚ) :
    (ℚ × ℚ) × (ℚ × ℚ) :=
  let s := sortQ sample
  let L := (pyInt (fraction * sample.length)).toNat
  let start := (pyInt paras.2.1).toNat
  let gap := (pyInt paras.2.2).toNat
  let w1 := (pyInt (paras.1 * L)).toNat
  let w2 := L - w1
  let start2 := start + w1 + gap
  ((s.getD start 0, s.getD (start + w1) 0), (s.getD start2 0, s.getD (start2 + w2) 0))

/-- Result of `sample_hdi`: one interval or two. -/
inductive HdiResult where
  | single (r : ℚ × ℚ)
  | double (r1 r2 : ℚ × ℚ)

/-- `sample_hdi(sample, fraction, force_single)`.  Raising `ValueError` is
modelled by `Except.error`; `deX` is the vector returned by
`differential_evolution` on the double-interval objective. -/
def sample_hdi (sample : List ℚ) (fraction : ℚ) ( force_single : Bool)
    (deX : ℚ × ℚ × ℚ) : Except String HdiResult :=
  if ¬(0 < fraction ∧ fraction < 1) then
    .error "fraction parameter must be between 0 and 1"
  else if sample.length < 2 then
    .error "The sample must have at least 2 elements"
  else
    let s := sortQ sample
    let n := s.length
    let L := hdiL fraction n
    if n ≤ L then .ok (.single (s.getD 0 0, s.getD (n - 1) 0))
    else
      let r1 := hdiSingle s L
      let w1 := r1.2 - r1.1
      if force_single then .ok (.single r1)
      else
        let I := dblReturnIntervals sample fraction deX
        let w2 := (I.2.2 - I.2.1) + (I.1.2 - I.1.1)
        if w2 < w1 * (99/100) then .ok (.double I.1 I.2) else .ok (.single r1)

/-! ## `GaussianKDE.__init__` slice construction (pdf_tools.py, lines 368-404) -/

/-- `numpy.searchsorted(s, v)` with the default left side, on a sorted list:
the first index whose element is `≥ v`, i.e. the count of elements `< v`. -/
def searchsorted (s : List ℚ) (v : ℚ) : ℕ := s.countP (fun a => decide (a < v))

/-- Fuel-based floor of `log2` on naturals (so that it evaluates by reduction). -/
def natLog2Aux : ℕ → ℕ → ℕ
  | 0, _ => 0
  | fuel + 1, n => if n < 2 then 0 else natLog2Aux fuel (n / 2) + 1

/-- `⌊log2 n⌋` for `n ≥ 1`. -/
def natLog2 (n : ℕ) : ℕ := natLog2Aux n n

/-- `int(log(r)/log(2))` for a positive ratio `r`, i.e. `log2 r` truncated
toward zero, computed exactly: for `r ≥ 1` it is `⌊log2 ⌊r⌋⌋`, and for
`0 < r < 1` it is `-⌊log2 ⌊1/r⌋⌋`. -/
def intLog2 (r : ℚ) : ℤ :=
  if 1 ≤ r then (natLog2 ⌊r⌋.toNat : ℤ) else -(natLog2 ⌊r⁻¹⌋.toNat : ℤ)

/-- `self.s = sort(array(sample).flatten())`. -/
def kdeS (sample : List ℚ) : List ℚ := sortQ sample

/-- `self.cutoff = self.h * 4`. -/
def kdeCutoff (h : ℚ) : ℚ := h * 4

/-- `n = int(log((self.s[-1] - self.s[0]) / self.h) / log(2)) + 1`: the number
of tree layers; `2^n` regions.  (`toNat` models the use of the value as a
bucket count; for the degenerate case `range < h` the Python construction is
ill-formed, and the claims concern `range ≥ h`.) -/
def kdeLayers (sample : List ℚ) (h : ℚ) : ℕ :=
  (intLog2 (((kdeS sample).getD ((kdeS sample).length - 1) 0 - (kdeS sample).getD 0 0) / h)
    + 1).toNat

/-- Midpoint of region `k`: `mids = 0.5*(mids[1:] + mids[:-1])` over
`linspace(s[0], s[-1], 2^n + 1)`, i.e. `s[0] + (k + 1/2) * range / 2^n`. -/
def kdeMid (sample : List ℚ) (h : ℚ) (k : ℕ) : ℚ :=
  (kdeS sample).getD 0 0 + ((k:ℚ) + 1/2) *
    (((kdeS sample).getD ((kdeS sample).length - 1) 0 - (kdeS sample).getD 0 0)
      / 2 ^ kdeLayers sample h)

/-- Lower endpoint of bucket `k` of the partition. -/
def kdeBucketLo (sample : List ℚ) (h : ℚ) (k : ℕ) : ℚ :=
  (kdeS sample).getD 0 0 + (k:ℚ) *
    (((kdeS sample).getD ((kdeS sample).length - 1) 0 - (kdeS sample).getD 0 0)
      / 2 ^ kdeLayers sample h)

/-- Upper endpoint of bucket `k` of the partition. -/
def kdeBucketHi (sample : List ℚ) (h : ℚ) (k : ℕ) : ℚ :=
  (kdeS sample).getD 0 0 + ((k:ℚ) + 1) *
    (((kdeS sample).getD ((kdeS sample).length - 1) 0 - (kdeS sample).getD 0 0)
      / 2 ^ kdeLayers sample h)

/-- `lwr_inds = searchsorted(self.s, mids - self.cutoff)`. -/
def kdeSliceLwr (sample : List ℚ) (h : ℚ) (k : ℕ) : ℕ :=
  searchsorted (kdeS sample) (kdeMid sample h k - kdeCutoff h)

/-- `upr_inds = searchsorted(self.s, mids + self.cutoff)`.  The slice stored in
`slice_map` for the midpoint of bucket `k` is `slice(lwr_inds[k], upr_inds[k])`,
i.e. the index set `{j | lwr ≤ j < upr}`. -/
def kdeSliceUpr (sample : List ℚ) (h : ℚ) (k : ℕ) : ℕ :=
  searchsorted (kdeS sample) (kdeMid sample h k + kdeCutoff h)

/-! ## `DensityEstimator.binary_search` (pdf_tools.py, lines 163-191) -/

/-- One pass of the `while not converged` body: evaluate `func` at the current
midpoint `x = (x_min + x_max) * 0.5` and replace one bracket end by `x`. -/
def bsStep (func : ℚ → ℚ) (value : ℚ) (uphill : Bool) (st : ℚ × ℚ) : ℚ × ℚ :=
  let x := (st.1 + st.2) * (1/2)
  if func x > value then (if uphill then (st.1, x) else (x, st.2))
  else (if uphill then (x, st.2) else (st.1, x))

/-- The convergence test performed after the body has updated the bracket and
recomputed `x = (x_min + x_max) * 0.5`: `abs((x_max - x_min)/x) < 1e-3`.
(Exact-field division; a zero midpoint in Python raises instead, which also
does not terminate the loop normally.) -/
def bsDone (st : ℚ × ℚ) : Prop :=
  |(st.2 - st.1) / ((st.1 + st.2) * (1/2))| < 1/1000

instance bsDone_decidable (st : ℚ × ℚ) : Decidable (bsDone st) :=
  inferInstanceAs (Decidable (_ < _))

/-- The loop with explicit fuel; the source's `while` loop corresponds to any
fuel at least as large as the first iteration passing the test. -/
def bsLoop (func : ℚ → ℚ) (value : ℚ) (uphill : Bool) : ℕ → ℚ × ℚ → ℚ × ℚ
  | 0, st => st
  | fuel + 1, st =>
    if bsDone (bsStep func value uphill st) then bsStep func value uphill st
    else bsLoop func value uphill fuel (bsStep func value uphill st)

/-- The final linear-interpolation polish step producing the returned value. -/
def bsPolish (func : ℚ → ℚ) (value : ℚ) (st : ℚ × ℚ) : ℚ :=
  st.1 * ((func st.2 - value) / (func st.2 - func st.1))
    + st.2 * ((value - func st.1) / (func st.2 - func st.1))

/-- `DensityEstimator.binary_search(func, value, bounds, uphill)` (fuelled). -/
def binary_search (func : ℚ → ℚ) (value : ℚ) (bounds : ℚ × ℚ) (uphill : Bool)
    (fuel : ℕ) : ℚ :=
  bsPolish func value (bsLoop func value uphill fuel bounds)

/-- A function making the bracket collapse onto `0` from the right. -/
def bsBadFunc (x : ℚ) : ℚ := if 0 < x then 2 else 0

/-! ## `GaussianKDE.cross_validation_bandwidth_estimator` initial grid
(pdf_tools.py, lines 445-448) -/

/-- The grid multipliers `(-2, -1, 0, 1, 2)`. -/
def cvGridOffsets : List ℚ := [-2, -1, 0, 1, 2]

/-- The five bandwidths at which the initial grid evaluates the CV
log-probability: the code builds `log_h = [initial_h + m*dh for m in
(-2,-1,0,1,2)]` with `dh = 0.5` — seeding `log_h` with the rule-of-thumb
bandwidth `initial_h` itself, not its logarithm — and then evaluates
`cross_validation_logprob(samples, exp(h))` for each `h` in `log_h`. -/
noncomputable def cvGridWidths (initial_h : ℝ) : List ℝ :=
  cvGridOffsets.map (fun m : ℚ => Real.exp (initial_h + (m:ℝ) * (1/2)))

/-- The grid the specification and claim describe: five bandwidths whose
logarithms are `log(h_rot) + m*0.5`. -/
noncomputable def specGridWidths (h_rot : ℝ) : List ℝ :=
  cvGridOffsets.map (fun m : ℚ => Real.exp (Real.log h_rot + (m:ℝ) * (1/2)))

/-! ## `GaussianKDE` cross-validation score (pdf_tools.py, lines 490-513) -/

/-- `numpy.logaddexp(a, b) = log(exp(a) + exp(b))`. -/
noncomputable def logaddexp (a b : ℝ) : ℝ := Real.log (Real.exp a + Real.exp b)

/-- `GaussianKDE.log_kernel(x, c, h) = -0.5*((x - c)/h)**2 - log(h)`. -/
noncomputable def log_kernel (x c h : ℝ) : ℝ :=
  -(0.5) * ((x - c) / h) ^ 2 - Real.log h

/-- `GaussianKDE.log_evaluation(points, samples, width)` at one point `x`:
`reduce(logaddexp, (log_kernel(x, s, width) for s in samples))
- log(len(samples) * sqrt(2*pi))`.  (`reduce` over an empty sample raises; the
model assigns the junk value `0` there.) -/
noncomputable def log_evaluation : ℝ → List ℝ → ℝ → ℝ
  | _, [], _ => 0
  | x, c :: rest, width =>
    (rest.map (fun s => log_kernel x s width)).foldl logaddexp (log_kernel x c width)
      - Real.log (((c :: rest).length : ℝ) * Real.sqrt (2 * Real.pi))

/-- `GaussianKDE.cross_validation_logprob(samples, width, c=0.99)`:
`log_pdf = log_evaluation(samples, samples, width)`;
`d = log(c) - log(width * len(samples) * sqrt(2*pi)) - log_pdf`;
`(log_pdf + log(1 - exp(d))).sum()`. -/
noncomputable def cross_validation_logprob (samples : List ℝ) (width c : ℝ) : ℝ :=
  (samples.map (fun x =>
    let log_pdf := log_evaluation x samples width;
    log_pdf + Real.log (1 - Real.exp (Real.log c
      - Real.log (width * (samples.length : ℝ) * Real.sqrt (2 * Real.pi))
      - log_pdf)))).sum

/-- The leave-one-out objective stated by the specification and claim:
`Σ_i log[ (1/((n-1)·√(2π)·h)) · Σ_{j≠i} exp(-((s_i-s_j)/(√2·h))²) ]`. -/
noncomputable def loo_cv_objective (samples : List ℝ) (width : ℝ) : ℝ :=
  ∑ i in Finset.range samples.length,
    Real.log ((1 / (((samples.length : ℝ) - 1) * Real.sqrt (2 * Real.pi) * width))
      * ∑ j in (Finset.range samples.length).erase i,
          Real.exp (-((samples.getD i 0 - samples.getD j 0) / (Real.sqrt 2 * width)) ^ 2))

/-- The Gaussian kernel sum `Σ_j exp(-((x - s_j)/(√2·h))²)` over the whole
sample, including the self term. -/
noncomputable def kernelSum (samples : List ℝ) (x width : ℝ) : ℝ :=
  (samples.map (fun c => Real.exp (-(((x - c) / (Real.sqrt 2 * width)) ^ 2)))).sum

namespace UnimodalPdf

/-! ## `UnimodalPdf` (pdf_tools.py, lines 196-315) -/

/-- `UnimodalPdf.log_pdf_model(x, pvec)`: with `v' = exp(v)+1`,
`z0 = (x-x0)/s0`, `ds = exp(f*tanh(z0/k))`, `z = z0/ds`, the unnormalized
log-density `-(0.5*(1+v'))*log(1 + |z|^q/v')`. -/
noncomputable def log_pdf_model (x x0 s0 v f k q : ℝ) : ℝ :=
  let vp := Real.exp v + 1
  let z0 := (x - x0) / s0
  let ds := Real.exp (f * Real.tanh (z0 / k))
  let z := z0 / ds;
  -(0.5 * (1 + vp)) * Real.log (1 + |z| ^ q / vp)

/-- `UnimodalPdf.pdf_model(x, pvec) = exp(log_pdf_model(x, pvec))`. -/
noncomputable def pdf_model (x x0 s0 v f k q : ℝ) : ℝ :=
  Real.exp (log_pdf_model x x0 s0 v f k q)

/-- Chebyshev node `t_j = cos(0.5*pi*(2j-1)/n_nodes)` with `n_nodes = 128`,
`j = 1..128`. -/
noncomputable def chebT (j : ℕ) : ℝ :=
  Real.cos (0.5 * Real.pi * ((2 * (j:ℝ) - 1) / 128))

/-- `self.u = t/(1 - t**2)`. -/
noncomputable def chebU (j : ℕ) : ℝ := chebT j / (1 - chebT j ^ 2)

/-- `self.w = (pi/n_nodes) * (1 + t**2) / (sd * (1 - t**2)**1.5)`,
`sd = 0.2`. -/
noncomputable def chebW (j : ℕ) : ℝ :=
  (Real.pi / 128) * (1 + chebT j ^ 2) / ((0.2:ℝ) * (1 - chebT j ^ 2) ^ (1.5:ℝ))

/-- `UnimodalPdf.norm(pvec)`: `(self.w * pdf_model(self.u, [0., sd, *pvec[2:]])).sum()
* pvec[1]`. -/
noncomputable def norm (s0 v f k q : ℝ) : ℝ :=
  (∑ j in Finset.Icc 1 128, chebW j * pdf_model (chebU j) 0 (0.2:ℝ) v f k q) * s0

/-- `UnimodalPdf.posterior(paras)` over the (possibly thinned) sample `xs`:
the prior check `(s0 > 0) & (0 < k < 20) & (1 < q < 6)` guards the evaluation;
otherwise the sentinel `-1e50` is returned. -/
noncomputable def posterior (xs : List ℝ) (x0 s0 v f k q : ℝ) : ℝ :=
  if 0 < s0 ∧ (0 < k ∧ k < 20) ∧ (1 < q ∧ q < 6) then
    (xs.map (fun x => log_pdf_model x x0 s0 v f k q)).sum
      - (xs.length : ℝ) * Real.log (norm s0 v f k q)
  else -1e50

end UnimodalPdf

/-! ## `BinaryTree` (pdf_tools.py, lines 580-613) -/

/-- A node of the nested-list tree built by `BinaryTree.__init__`: either a
depth-1 leaf `[bucketLo, bucketHi, bucketMid]` or an internal node
`[left, right, key]`. -/
inductive BTree where
  | leaf (lo hi mid : ℚ)
  | node (l r : BTree) (key : ℚ)

/-- Element `[2]` of a node: a leaf's bucket midpoint or an inner node's key. -/
def BTree.key3 : BTree → ℚ
  | .leaf _ _ m => m
  | .node _ _ k => k

/-- One pass of the merging loop:
`q.append([L[2i], L[2i+1], 0.5*(L[2i][2] + L[2i+1][2])])`. -/
def mergeStep : List BTree → List BTree
  | a :: b :: rest => .node a b ((a.key3 + b.key3) / 2) :: mergeStep rest
  | _ => []

/-- The initial depth-1 trees `[L[i], L[i+1], 0.5*(L[i] + L[i+1])]` over the
`linspace(lo, hi, 2^layers + 1)` boundaries `L[i] = lo + i*(hi-lo)/2^layers`. -/
def mkLeaves (lo step : ℚ) (count : ℕ) : List BTree :=
  (List.range count).map (fun i : ℕ =>
    .leaf (lo + (i:ℚ) * step) (lo + ((i:ℚ) + 1) * step)
      ((lo + (i:ℚ) * step + (lo + ((i:ℚ) + 1) * step)) / 2))

/-- `BinaryTree.__init__(layers, (lo, hi))`: build the `2^layers` leaves, merge
pairwise `layers - 1` times, close with the root key `0.5*(lo + hi)`.  (For
`layers = 0` the source keeps the 2-element list `[leaf, midpoint]`, which is
not a tree node; the lookup claims concern `layers ≥ 1`.) -/
def buildTree (layers : ℕ) (lo hi : ℚ) : BTree :=
  match mergeStep^[layers - 1] (mkLeaves lo ((hi - lo) / 2 ^ layers) (2 ^ layers)) with
  | a :: b :: _ => .node a b ((lo + hi) / 2)
  | [a] => a
  | [] => .leaf lo hi ((lo + hi) / 2)

/-- `BinaryTree.lookup(val)`: `D = D[val > D[2]]`, descending `layers` steps
(the tree is perfect of depth `layers`, so descending to a leaf is the same). -/
def BTree.lookup : BTree → ℚ → BTree
  | .leaf a b m, _ => .leaf a b m
  | .node l r k, x => if k < x then BTree.lookup r x else BTree.lookup l x

/-- The perfect subtree of depth `k` over buckets `j*2^k .. (j+1)*2^k - 1`; this
is what the pairwise merging produces (proved below). -/
def perfect (lo step : ℚ) : ℕ → ℕ → BTree
  | 0, j => .leaf (lo + j * step) (lo + (j + 1) * step)
      ((lo + j * step + (lo + (j + 1) * step)) / 2)
  | k + 1, j => .node (perfect lo step k (2 * j)) (perfect lo step k (2 * j + 1))
      (((perfect lo step k (2 * j)).key3 + (perfect lo step k (2 * j + 1)).key3) / 2)

/-- The list `[perfect t a, perfect t (a+1), ..., perfect t (a+m-1)]`. -/
def pList (lo step : ℚ) (t a m : ℕ) : List BTree :=
  (List.range m).map (fun i => perfect lo step t (a + i))

/-- Leaf (bucket) `i` of the partition of `[lo, hi]` into `2^layers` equal
buckets, exactly as stored at the bottom of the tree. -/
def bucketLeaf (layers : ℕ) (lo hi : ℚ) (i : ℕ) : BTree :=
  perfect lo ((hi - lo) / 2 ^ layers) 0 i

/-- Brute-force linear scan (the claim's reference procedure): index of the
first of the `2^layers` equal-width buckets `[L[i], L[i+1]]` that contains `x`
(`2^layers`, i.e. out of range, when none does). -/
def bruteScan (layers : ℕ) (lo hi x : ℚ) : ℕ :=
  List.findIdx (fun i : ℕ =>
    decide (lo + (i:ℚ) * ((hi - lo) / 2 ^ layers) ≤ x ∧
      x ≤ lo + ((i:ℚ) + 1) * ((hi - lo) / 2 ^ layers)))
    (List.range (2 ^ layers))

/-- Number of sample points falling inside the closed interval `[a, b]`. -/
def countIn (s : List ℚ) (a b : ℚ) : ℕ := s.countP (fun y => decide (a ≤ y ∧ y ≤ b))

/-! ## Theorems -/

theorem sortQ_sorted (l : List ℚ) : (sortQ l).Sorted (· ≤ ·) :=
  List.sorted_insertionSort _ l

theorem sortQ_length (l : List ℚ) : (sortQ l).length = l.length :=
  (List.perm_insertionSort _ l).length_eq

theorem sorted_getD_mono {l : List ℚ} (hl : l.Sorted (· ≤ ·)) {i j : ℕ}
    (hij : i ≤ j) (hj : j < l.length) : l.getD i 0 ≤ l.getD j 0 := by
  have hi : i < l.length := lt_of_le_of_lt hij hj
  rw [List.getD_eq_getElem l 0 hi, List.getD_eq_getElem l 0 hj]
  rcases lt_or_eq_of_le hij with h | h
  · exact hl.rel_get_of_lt (by simpa using h)
  · subst h; exact le_refl _

theorem listArgmin_lt_length (l : List ℚ) (hl : l ≠ []) : listArgmin l < l.length := by
  induction l with
  | nil => simp at hl
  | cons a t ih =>
    rw [listArgmin]
    split_ifs with h
    · simpa using Nat.succ_lt_succ (ih h.2)
    · simp

theorem listArgmin_getD_le (l : List ℚ) (k : ℕ) (hk : k < l.length) :
    l.getD (listArgmin l) 0 ≤ l.getD k 0 := by
  induction l generalizing k with
  | nil => simp at hk
  | cons a t ih =>
    rw [listArgmin]
    split_ifs with h
    · rw [List.getD_cons_succ]
      cases k with
      | zero => simpa using le_of_lt h.1
      | succ k =>
        rw [List.getD_cons_succ]
        refine ih k ?_
        simp only [List.length_cons] at hk
        omega
    · rw [List.getD_cons_zero]
      cases k with
      | zero => simp
      | succ k =>
        rw [List.getD_cons_succ]
        rcases eq_or_ne t [] with ht | ht
        · subst ht; simp at hk
        · have hx : ¬ t.getD (listArgmin t) 0 < a := fun hx => h ⟨hx, ht⟩
          refine le_trans (le_of_not_lt hx) (ih k ?_)
          simp only [List.length_cons] at hk
          omega

theorem hdiL_lt {fraction : ℚ} {n : ℕ} (h0 : 0 < fraction) (h1 : fraction < 1)
    (hn : 1 ≤ n) : hdiL fraction n < n := by
  have hpos : (0:ℚ) ≤ fraction * n := by positivity
  have hfloor : ⌊fraction * (n:ℚ)⌋ < (n:ℤ) := by
    refine Int.floor_lt.2 ?_
    push_cast
    have hn' : (0:ℚ) < n := by exact_mod_cast hn
    nlinarith
  have h0' : (0:ℤ) ≤ ⌊fraction * (n:ℚ)⌋ := Int.le_floor.2 (by exact_mod_cast hpos)
  unfold hdiL pyInt
  rw [if_pos hpos]
  omega

theorem hdiWidths_length (s : List ℚ) (L : ℕ) :
    (hdiWidths s L).length = s.length - L := by
  simp [hdiWidths]

theorem hdiWidths_getD (s : List ℚ) (L : ℕ) (j : ℕ) (hj : j < s.length - L) :
    (hdiWidths s L).getD j 0 = s.getD (j + L) 0 - s.getD j 0 := by
  unfold hdiWidths
  rw [List.getD_eq_getElem _ 0 (by simpa using hj)]
  simp

/-- Claim C8: `sample_hdi` fails (raises) exactly when the fraction is not in
`(0,1)` or the sample has fewer than 2 elements; both guards precede all
computation, and every non-error path returns a result. -/
theorem sample_hdi_error_iff (sample : List ℚ) (fraction : ℚ) (fs : Bool)
    (deX : ℚ × ℚ × ℚ) :
    (∃ e, sample_hdi sample fraction fs deX = Except.error e) ↔
      (¬(0 < fraction ∧ fraction < 1) ∨ sample.length < 2) := by
  by_cases h1 : 0 < fraction ∧ fraction < 1
  · by_cases h2 : sample.length < 2
    · simp [sample_hdi, h1, h2]
    · simp only [sample_hdi, h1, not_true_eq_false, if_false, if_neg h2]
      constructor
      · rintro ⟨e, he⟩
        split_ifs at he <;> simp_all
      · rintro (h | h) <;> simp_all
  · simp [sample_hdi, h1]

/-- Claim C8 witness: the three particular invalid inputs named by the claim
(`fraction = 0`, `fraction = 1`, singleton sample) all produce errors. -/
theorem sample_hdi_error_iff_witness :
    (∃ e, sample_hdi [1, 2] 0 true (0, 0, 0) = Except.error e) ∧
      (∃ e, sample_hdi [1, 2] 1 true (0, 0, 0) = Except.error e) ∧
      (∃ e, sample_hdi [5] (1/2) true (0, 0, 0) = Except.error e) :=
  ⟨(sample_hdi_error_iff [1, 2] 0 true (0, 0, 0)).2 (Or.inl (by norm_num)),
   (sample_hdi_error_iff [1, 2] 1 true (0, 0, 0)).2 (Or.inl (by norm_num)),
   (sample_hdi_error_iff [5] (1/2) true (0, 0, 0)).2 (Or.inr (by norm_num))⟩

/-- Claim C2: with `force_single = False`, `sample_hdi` returns the
double-interval solution produced by the optimizer exactly when its combined
width is strictly below `0.99` times the best single-interval width, and the
single interval otherwise. -/
theorem sample_hdi_double_iff (sample : List ℚ) (fraction : ℚ) (deX : ℚ × ℚ × ℚ)
    (h0 : 0 < fraction) (h1 : fraction < 1) (hn : 2 ≤ sample.length) :
    (sample_hdi sample fraction false deX =
        Except.ok (.double (dblReturnIntervals sample fraction deX).1
          (dblReturnIntervals sample fraction deX).2) ↔
      ((dblReturnIntervals sample fraction deX).2.2
            - (dblReturnIntervals sample fraction deX).2.1)
          + ((dblReturnIntervals sample fraction deX).1.2
            - (dblReturnIntervals sample fraction deX).1.1)
        < ((hdiSingle (sortQ sample) (hdiL fraction (sortQ sample).length)).2
            - (hdiSingle (sortQ sample) (hdiL fraction (sortQ sample).length)).1) * (99/100)) ∧
      (¬ (((dblReturnIntervals sample fraction deX).2.2
            - (dblReturnIntervals sample fraction deX).2.1)
          + ((dblReturnIntervals sample fraction deX).1.2
            - (dblReturnIntervals sample fraction deX).1.1)
        < ((hdiSingle (sortQ sample) (hdiL fraction (sortQ sample).length)).2
            - (hdiSingle (sortQ sample) (hdiL fraction (sortQ sample).length)).1) * (99/100)) →
        sample_hdi sample fraction false deX =
          Except.ok (.single (hdiSingle (sortQ sample) (hdiL fraction (sortQ sample).length)))) := by
  have hfr : 0 < fraction ∧ fraction < 1 := ⟨h0, h1⟩
  have hn2 : ¬ sample.length < 2 := by omega
  have hlen : (sortQ sample).length = sample.length := sortQ_length sample
  have hL : hdiL fraction (sortQ sample).length < (sortQ sample).length :=
    hdiL_lt h0 h1 (by omega)
  have hnL : ¬ (sortQ sample).length ≤ hdiL fraction (sortQ sample).length := by omega
  constructor
  · by_cases hc : ((dblReturnIntervals sample fraction deX).2.2
            - (dblReturnIntervals sample fraction deX).2.1)
          + ((dblReturnIntervals sample fraction deX).1.2
            - (dblReturnIntervals sample fraction deX).1.1)
        < ((hdiSingle (sortQ sample) (hdiL fraction (sortQ sample).length)).2
            - (hdiSingle (sortQ sample) (hdiL fraction (sortQ sample).length)).1) * (99/100)
    · simp [sample_hdi, hfr, hn2, hnL, hc]
    · simp [sample_hdi, hfr, hn2, hnL, hc]
  · intro hc
    simp [sample_hdi, hfr, hn2, hnL, hc]

/-- Claim C2 witness: at `sample = [0,1,2,10]`, `fraction = 1/2` and optimizer
output `(f1, start, gap) = (1/2, 0, 1)` the candidate double interval
`((0,1),(2,10))` has width `9`, the single interval `(0,2)` width `2`, so the
single interval is returned. -/
theorem sample_hdi_double_iff_witness :
    sample_hdi [0, 1, 2, 10] (1/2) false (1/2, 0, 1) =
      Except.ok (.single (hdiSingle (sortQ [0, 1, 2, 10]) (hdiL (1/2) (sortQ [0, 1, 2, 10]).length))) := by
  refine (sample_hdi_double_iff [0, 1, 2, 10] (1/2) (1/2, 0, 1)
    (by norm_num) (by norm_num) (by norm_num)).2 ?_
  have hsorted : ([0, 1, 2, 10] : List ℚ).Sorted (· ≤ ·) := by
    norm_num [List.sorted_cons]
  have hsq : sortQ [0, 1, 2, 10] = [0, 1, 2, 10] := List.Sorted.insertionSort_eq hsorted
  have hL : hdiL (1/2) (sortQ [0, 1, 2, 10]).length = 2 := by
    rw [hsq]
    have h2 : pyInt ((1/2 : ℚ) * (4:ℕ)) = 2 := by
      unfold pyInt
      rw [if_pos (by norm_num)]
      norm_num
    show (pyInt ((1/2 : ℚ) * (4:ℕ))).toNat = 2
    rw [h2]
    rfl
  have hdbl : dblReturnIntervals [0, 1, 2, 10] (1/2) (1/2, 0, 1) = ((0, 1), (2, 10)) := by
    unfold dblReturnIntervals
    simp only [hsq]
    norm_num [pyInt]
    simp only [show Int.toNat 2 = 2 from rfl]
    norm_num
  have hw : hdiWidths [0, 1, 2, 10] 2 = [2, 9] := by
    norm_num [hdiWidths, List.range_succ]
  have hsingle : hdiSingle (sortQ [0, 1, 2, 10]) (hdiL (1/2) (sortQ [0, 1, 2, 10]).length) = (0, 2) := by
    rw [hL, hsq]
    unfold hdiSingle hdiIdx
    rw [hw]
    norm_num [listArgmin]
  rw [hdbl, hsingle]
  norm_num

/-- On a sorted list, the elements `< v` form a prefix of length
`countP (· < v)`. -/
theorem sorted_lt_countP (s : List ℚ) (hs : s.Sorted (· ≤ ·)) (v : ℚ) :
    ∀ j, j < s.length → (s.getD j 0 < v ↔ j < s.countP (fun a => decide (a < v))) := by
  induction s with
  | nil => intro j hj; simp at hj
  | cons a t ih =>
    have hsa : ∀ y ∈ t, a ≤ y := (List.sorted_cons.mp hs).1
    have hst : t.Sorted (· ≤ ·) := (List.sorted_cons.mp hs).2
    intro j hj
    rw [List.countP_cons]
    by_cases hav : a < v
    · rw [if_pos (decide_eq_true hav)]
      cases j with
      | zero =>
        rw [List.getD_cons_zero]
        constructor
        · intro _; omega
        · intro _; exact hav
      | succ j =>
        rw [List.getD_cons_succ]
        have hj' : j < t.length := by simp only [List.length_cons] at hj; omega
        rw [ih hst j hj']
        omega
    · have htcount : t.countP (fun a => decide (a < v)) = 0 := by
        rw [List.countP_eq_zero]
        intro y hy
        simp only [decide_eq_true_eq]
        exact fun hyv => hav (lt_of_le_of_lt (hsa y hy) hyv)
      rw [if_neg (by simpa using hav), htcount]
      cases j with
      | zero =>
        rw [List.getD_cons_zero]
        simp [hav]
      | succ j =>
        rw [List.getD_cons_succ]
        have hj' : j < t.length := by simp only [List.length_cons] at hj; omega
        constructor
        · intro hlt
          exfalso
          have hmem : t.getD j 0 ∈ t := by
            rw [List.getD_eq_getElem t 0 hj']
            exact List.getElem_mem hj'
          exact hav (lt_of_le_of_lt (hsa _ hmem) hlt)
        · intro h
          omega

/-- Claim C4 (amended): the slice stored for bucket `k` holds exactly the
indices of the sorted-sample values within `cutoff = 4h` of the bucket
*midpoint*, half-open above: `mid - 4h ≤ s[j] < mid + 4h`. -/
theorem kde_slice_iff (sample : List ℚ) (h : ℚ) (k j : ℕ)
    (hj : j < (kdeS sample).length) :
    (kdeSliceLwr sample h k ≤ j ∧ j < kdeSliceUpr sample h k) ↔
      (kdeMid sample h k - kdeCutoff h ≤ (kdeS sample).getD j 0 ∧
        (kdeS sample).getD j 0 < kdeMid sample h k + kdeCutoff h) := by
  have hs : (kdeS sample).Sorted (· ≤ ·) := sortQ_sorted sample
  have hlwr := sorted_lt_countP (kdeS sample) hs (kdeMid sample h k - kdeCutoff h) j hj
  have hupr := sorted_lt_countP (kdeS sample) hs (kdeMid sample h k + kdeCutoff h) j hj
  unfold kdeSliceLwr kdeSliceUpr searchsorted
  constructor
  · rintro ⟨h1, h2⟩
    exact ⟨not_lt.mp (fun hc => by have := hlwr.mp hc; omega), hupr.mpr h2⟩
  · rintro ⟨h1, h2⟩
    refine ⟨?_, hupr.mp h2⟩
    by_contra hc
    have := hlwr.mpr (by omega)
    exact absurd this (not_lt.mpr h1)

/-- Claim C4 witness: instantiation of the slice characterization at
`sample = [0, 9/2, 10]`, `h = 1`, bucket `0`, index `1`. -/
theorem kde_slice_iff_witness :
    (kdeSliceLwr [0, 9/2, 10] 1 0 ≤ 1 ∧ 1 < kdeSliceUpr [0, 9/2, 10] 1 0) ↔
      (kdeMid [0, 9/2, 10] 1 0 - kdeCutoff 1 ≤ (kdeS [0, 9/2, 10]).getD 1 0 ∧
        (kdeS [0, 9/2, 10]).getD 1 0 < kdeMid [0, 9/2, 10] 1 0 + kdeCutoff 1) :=
  kde_slice_iff [0, 9/2, 10] 1 0 1 (by simp [kdeS, sortQ_length])

/-- Claim C4 counterexample to the claim as stated: for the sample
`[0, 9/2, 10]` with bandwidth `h = 1` we get `16` buckets of width `5/8`;
sample index `1` (value `9/2`) is within `cutoff = 4` of the point `5/8` of
bucket `0` (`|9/2 - 5/8| = 31/8 ≤ 4`), yet the stored slice for bucket `0` is
`[0, 1)`, which does not contain index `1`: the slice does *not* contain all
samples within `cutoff` of every point of the bucket. -/
theorem kde_slice_counterexample :
    (∃ y : ℚ, kdeBucketLo [0, 9/2, 10] 1 0 ≤ y ∧ y ≤ kdeBucketHi [0, 9/2, 10] 1 0 ∧
        |(kdeS [0, 9/2, 10]).getD 1 0 - y| ≤ kdeCutoff 1) ∧
      ¬ (kdeSliceLwr [0, 9/2, 10] 1 0 ≤ 1 ∧ 1 < kdeSliceUpr [0, 9/2, 10] 1 0) := by
  have hsorted : ([0, 9/2, 10] : List ℚ).Sorted (· ≤ ·) := by
    norm_num [List.sorted_cons]
  have hkdeS : kdeS [0, 9/2, 10] = [0, 9/2, 10] := List.Sorted.insertionSort_eq hsorted
  have hlayers : kdeLayers [0, 9/2, 10] 1 = 4 := by
    unfold kdeLayers
    rw [hkdeS]
    have hratio : (([0, 9/2, 10] : List ℚ).getD (([0, 9/2, 10] : List ℚ).length - 1) 0
        - ([0, 9/2, 10] : List ℚ).getD 0 0) / 1 = 10 := by
      norm_num
    rw [hratio]
    have hil : intLog2 10 = 3 := by
      unfold intLog2
      rw [if_pos (by norm_num)]
      norm_num [show ⌊(10:ℚ)⌋ = 10 from by norm_num]
      rfl
    rw [hil]
    rfl
  have hmid : kdeMid [0, 9/2, 10] 1 0 = 5/16 := by
    unfold kdeMid
    rw [hlayers, hkdeS]
    norm_num
  have hlwr : kdeSliceLwr [0, 9/2, 10] 1 0 = 0 := by
    unfold kdeSliceLwr searchsorted kdeCutoff
    rw [hkdeS, hmid]
    norm_num [List.countP_cons]
  have hupr : kdeSliceUpr [0, 9/2, 10] 1 0 = 1 := by
    unfold kdeSliceUpr searchsorted kdeCutoff
    rw [hkdeS, hmid]
    norm_num [List.countP_cons]
  constructor
  · refine ⟨5/8, ?_, ?_, ?_⟩
    · unfold kdeBucketLo
      rw [hlayers, hkdeS]
      norm_num
    · unfold kdeBucketHi
      rw [hlayers, hkdeS]
      norm_num
    · rw [hkdeS]
      unfold kdeCutoff
      norm_num
      rw [abs_of_pos (by norm_num : (0:ℚ) < 31/8)]
      norm_num
  · rw [hlwr, hupr]
    omega

theorem bsStep_bracket (func : ℚ → ℚ) (value : ℚ) (uphill : Bool) {st : ℚ × ℚ}
    (h : st.1 ≤ st.2) :
    st.1 ≤ (bsStep func value uphill st).1 ∧
      (bsStep func value uphill st).1 ≤ (bsStep func value uphill st).2 ∧
      (bsStep func value uphill st).2 ≤ st.2 ∧
      (bsStep func value uphill st).2 - (bsStep func value uphill st).1
        = (st.2 - st.1) / 2 := by
  simp only [bsStep]
  split_ifs <;> refine ⟨?_, ?_, ?_, ?_⟩ <;> simp <;> linarith

theorem bsIter_props (func : ℚ → ℚ) (value : ℚ) (uphill : Bool) (a b : ℚ)
    (hab : a ≤ b) (k : ℕ) :
    a ≤ ((bsStep func value uphill)^[k] (a, b)).1 ∧
      ((bsStep func value uphill)^[k] (a, b)).1 ≤ ((bsStep func value uphill)^[k] (a, b)).2 ∧
      ((bsStep func value uphill)^[k] (a, b)).2 - ((bsStep func value uphill)^[k] (a, b)).1
        = (b - a) / 2 ^ k := by
  induction k with
  | zero =>
    simp only [Function.iterate_zero, id_eq]
    exact ⟨le_refl a, hab, by norm_num⟩
  | succ k ih =>
    rw [Function.iterate_succ_apply']
    obtain ⟨h1, h2, h3⟩ := ih
    obtain ⟨g1, g2, g3, g4⟩ := bsStep_bracket func value uphill h2
    refine ⟨le_trans h1 g1, g2, ?_⟩
    rw [g4, h3]
    ring

theorem bsLoop_first_done (func : ℚ → ℚ) (value : ℚ) (uphill : Bool) :
    ∀ (fuel : ℕ) (st : ℚ × ℚ) (K : ℕ), 1 ≤ K → K ≤ fuel →
      bsDone ((bsStep func value uphill)^[K] st) →
      (∀ j, 1 ≤ j → j < K → ¬ bsDone ((bsStep func value uphill)^[j] st)) →
      bsLoop func value uphill fuel st = (bsStep func value uphill)^[K] st := by
  intro fuel
  induction fuel with
  | zero => intro st K hK1 hKf; omega
  | succ fuel ih =>
    intro st K hK1 hKf hdone hmin
    rw [bsLoop]
    by_cases hd : bsDone (bsStep func value uphill st)
    · rw [if_pos hd]
      have hK : K = 1 := by
        by_contra hne
        exact hmin 1 (le_refl 1) (by omega)
          (by simpa [Function.iterate_one] using hd)
      subst hK
      simp [Function.iterate_one]
    · rw [if_neg hd]
      have hK2 : 2 ≤ K := by
        by_contra hlt
        have hK : K = 1 := by omega
        subst hK
        exact hd (by simpa [Function.iterate_one] using hdone)
      have hshift : ∀ n : ℕ, (bsStep func value uphill)^[n] (bsStep func value uphill st)
          = (bsStep func value uphill)^[n + 1] st :=
        fun n => (Function.iterate_succ_apply (bsStep func value uphill) n st).symm
      have hres := ih (bsStep func value uphill st) (K - 1) (by omega) (by omega)
        (by rw [hshift (K - 1), show K - 1 + 1 = K from by omega]; exact hdone)
        (fun j hj1 hjlt => by
          rw [hshift j]
          exact hmin (j + 1) (by omega) (by omega))
      rw [hres, hshift (K - 1), show K - 1 + 1 = K from by omega]

/-- Claim C9 (amended): for every `func`, `value`, `uphill` and bounds with
`0 < x_min < x_max` (a bracket bounded away from zero, as in the estimator's
use on density values), the loop terminates: the relative-width test
`|(x_max - x_min)/x| < 1e-3` holds at some iteration `K ≥ 1`, it fails at all
earlier iterations, and for any sufficient fuel the returned value is the
linear-interpolation polish of the exit bracket. -/
theorem binary_search_terminates (func : ℚ → ℚ) (value : ℚ) (uphill : Bool)
    (a b : ℚ) (ha : 0 < a) (hab : a < b) :
    ∃ K, 1 ≤ K ∧ bsDone ((bsStep func value uphill)^[K] (a, b)) ∧
      (∀ j, 1 ≤ j → j < K → ¬ bsDone ((bsStep func value uphill)^[j] (a, b))) ∧
      ∀ fuel, K ≤ fuel → binary_search func value (a, b) uphill fuel
        = bsPolish func value ((bsStep func value uphill)^[K] (a, b)) := by
  have hex : ∃ k, 1 ≤ k ∧ bsDone ((bsStep func value uphill)^[k] (a, b)) := by
    obtain ⟨k0, hk0⟩ := pow_unbounded_of_one_lt (1000 * (b - a) / a)
      (show (1:ℚ) < 2 by norm_num)
    refine ⟨k0 + 1, by omega, ?_⟩
    obtain ⟨h1, h2, h3⟩ := bsIter_props func value uphill a b (le_of_lt hab) (k0 + 1)
    unfold bsDone
    set st := (bsStep func value uphill)^[k0 + 1] (a, b) with hst
    have hmida : a ≤ (st.1 + st.2) * (1/2) := by linarith
    have hmidpos : 0 < (st.1 + st.2) * (1/2) := lt_of_lt_of_le ha hmida
    have hwnn : (0:ℚ) ≤ st.2 - st.1 := by linarith
    rw [abs_of_nonneg (div_nonneg hwnn (le_of_lt hmidpos))]
    have hxa : (st.2 - st.1) / ((st.1 + st.2) * (1/2)) ≤ (st.2 - st.1) / a := by
      rw [div_le_div_iff hmidpos ha]
      nlinarith
    have hlast : (st.2 - st.1) / a < 1/1000 := by
      rw [h3]
      have hp0 : (0:ℚ) < 2 ^ k0 := by positivity
      have hp1 : (0:ℚ) < 2 ^ (k0 + 1) := by positivity
      have hnum : 1000 * (b - a) < 2 ^ k0 * a := by
        have := (div_lt_iff ha).mp hk0
        linarith
      rw [div_div, div_lt_div_iff (by positivity) (by norm_num : (0:ℚ) < 1000)]
      have hpow : (2:ℚ) ^ (k0 + 1) = 2 ^ k0 * 2 := by rw [pow_succ]
      nlinarith
    linarith
  refine ⟨Nat.find hex, (Nat.find_spec hex).1, (Nat.find_spec hex).2, ?_, ?_⟩
  · intro j hj1 hjlt hdone
    exact absurd ⟨hj1, hdone⟩ (Nat.find_min hex hjlt)
  · intro fuel hfuel
    unfold binary_search
    congr 1
    exact bsLoop_first_done func value uphill fuel (a, b) (Nat.find hex)
      (Nat.find_spec hex).1 hfuel (Nat.find_spec hex).2
      (fun j hj1 hjlt hdone => absurd ⟨hj1, hdone⟩ (Nat.find_min hex hjlt))

/-- Claim C9 witness: instantiation at `func = id`, `value = 0`,
`uphill = true`, bounds `(1, 2)`. -/
theorem binary_search_terminates_witness :
    (0:ℚ) < 1 ∧ (1:ℚ) < 2 ∧
      ∃ K, 1 ≤ K ∧ bsDone ((bsStep id 0 true)^[K] (1, 2)) ∧
        (∀ j, 1 ≤ j → j < K → ¬ bsDone ((bsStep id 0 true)^[j] (1, 2))) ∧
        ∀ fuel, K ≤ fuel → binary_search id 0 (1, 2) true fuel
          = bsPolish id 0 ((bsStep id 0 true)^[K] (1, 2)) :=
  ⟨by norm_num, by norm_num,
    binary_search_terminates id 0 true 1 2 (by norm_num) (by norm_num)⟩

/-- Claim C9 counterexample to the claim as stated: with `func = bsBadFunc`,
`value = 1`, `uphill = True` and bounds `(-1, 1)` (which satisfy
`x_min < x_max`), after one iteration the bracket is `(0, 1)` and thereafter
stays of the form `(0, w)`; the relative width `|(w - 0)/(w/2)| = 2` never
drops below `1e-3`, so the loop never terminates. -/
theorem bsBadFunc_step (w : ℚ) (hw : 0 < w) :
    bsStep bsBadFunc 1 true (0, w) = (0, w * (1/2)) := by
  have hcond : bsBadFunc (((0:ℚ) + w) * (1/2)) > 1 := by
    unfold bsBadFunc
    rw [if_pos (by positivity)]
    norm_num
  unfold bsStep
  simp only [hcond, if_true]
  simp only [Prod.mk.injEq]
  exact ⟨by trivial, by ring⟩

theorem binary_search_terminates_counterexample :
    ¬ ∃ k, 1 ≤ k ∧ bsDone ((bsStep bsBadFunc 1 true)^[k] (-1, 1)) := by
  have hstate : ∀ m : ℕ,
      (bsStep bsBadFunc 1 true)^[m + 1] (-1, 1) = (0, (1/2) ^ m) := by
    intro m
    induction m with
    | zero =>
      rw [Function.iterate_one]
      have hcond0 : ¬ (bsBadFunc (((-1:ℚ) + 1) * (1/2)) > 1) := by
        unfold bsBadFunc
        norm_num
      unfold bsStep
      simp only [hcond0, if_false, if_true]
      simp only [Prod.mk.injEq]
      norm_num
    | succ m ih =>
      rw [Function.iterate_succ_apply', ih,
        bsBadFunc_step ((1/2) ^ m) (by positivity), pow_succ]
  rintro ⟨k, hk1, hkdone⟩
  obtain ⟨m, rfl⟩ : ∃ m, k = m + 1 := ⟨k - 1, by omega⟩
  rw [hstate m] at hkdone
  unfold bsDone at hkdone
  simp only at hkdone
  have hpow : (0:ℚ) < (1/2) ^ m := by positivity
  rw [show ((1/2:ℚ) ^ m - 0) / ((0 + (1/2:ℚ) ^ m) * (1/2)) = 2 from by field_simp] at hkdone
  norm_num at hkdone

/-- Claim C5 (code bug): already at rule-of-thumb bandwidth `h_rot = 1` the
code's five evaluated bandwidths `exp(h_rot + m/2)` differ from the claimed
bandwidths `exp(log h_rot + m/2)`: the log-bandwidth grid is centered at the
raw bandwidth instead of its logarithm. -/
theorem cv_grid_not_log_centered : cvGridWidths 1 ≠ specGridWidths 1 := by
  intro hEq
  simp only [cvGridWidths, specGridWidths, cvGridOffsets, List.map_cons,
    List.map_nil, List.cons.injEq] at hEq
  have h3 := hEq.2.2.1
  rw [Real.log_one] at h3
  rw [Real.exp_eq_exp] at h3
  norm_num at h3

theorem exp_log_kernel (x c h : ℝ) (hh : 0 < h) :
    Real.exp (log_kernel x c h)
      = Real.exp (-(((x - c) / (Real.sqrt 2 * h)) ^ 2)) / h := by
  unfold log_kernel
  rw [Real.exp_sub, Real.exp_log hh]
  congr 2
  have h2 : (Real.sqrt 2) ^ 2 = 2 := Real.sq_sqrt (by norm_num)
  rw [div_pow, div_pow, mul_pow, h2]
  ring

theorem foldl_logaddexp_exp (l : List ℝ) (a : ℝ) :
    Real.exp (l.foldl logaddexp a) = Real.exp a + (l.map Real.exp).sum := by
  induction l generalizing a with
  | nil => simp
  | cons b t ih =>
    simp only [List.foldl_cons, List.map_cons, List.sum_cons]
    rw [ih (logaddexp a b)]
    unfold logaddexp
    rw [Real.exp_log (by positivity)]
    ring

theorem list_sum_map_div (l : List ℝ) (f : ℝ → ℝ) (w : ℝ) :
    (l.map (fun s => f s / w)).sum = (l.map f).sum / w := by
  induction l with
  | nil => simp
  | cons a t ih =>
    simp only [List.map_cons, List.sum_cons, ih]
    ring

theorem log_evaluation_eq (x : ℝ) (samples : List ℝ) (width : ℝ) (hw : 0 < width)
    (hne : samples ≠ []) :
    log_evaluation x samples width
      = Real.log (kernelSum samples x width / width)
        - Real.log ((samples.length : ℝ) * Real.sqrt (2 * Real.pi)) := by
  cases samples with
  | nil => exact absurd rfl hne
  | cons c rest =>
    have hexp : Real.exp
        ((rest.map (fun s => log_kernel x s width)).foldl logaddexp (log_kernel x c width))
        = kernelSum (c :: rest) x width / width := by
      rw [foldl_logaddexp_exp, List.map_map]
      have hmap : rest.map (Real.exp ∘ fun s => log_kernel x s width)
          = rest.map (fun s => Real.exp (-(((x - s) / (Real.sqrt 2 * width)) ^ 2)) / width) := by
        refine List.map_congr_left fun s _ => ?_
        simp only [Function.comp_apply]
        exact exp_log_kernel x s width hw
      rw [hmap, list_sum_map_div, exp_log_kernel x c width hw]
      unfold kernelSum
      simp only [List.map_cons, List.sum_cons]
      ring
    show (rest.map (fun s => log_kernel x s width)).foldl logaddexp (log_kernel x c width)
        - Real.log (((c :: rest).length : ℝ) * Real.sqrt (2 * Real.pi)) = _
    congr 1
    rw [← hexp, Real.log_exp]

theorem kernelSum_ge_one (samples : List ℝ) (x width : ℝ) (hx : x ∈ samples) :
    1 ≤ kernelSum samples x width := by
  unfold kernelSum
  have hself : Real.exp (-(((x - x) / (Real.sqrt 2 * width)) ^ 2)) = 1 := by
    simp
  have hmem : Real.exp (-(((x - x) / (Real.sqrt 2 * width)) ^ 2))
      ∈ samples.map (fun c => Real.exp (-(((x - c) / (Real.sqrt 2 * width)) ^ 2))) :=
    List.mem_map_of_mem _ hx
  have hnn : ∀ b ∈ samples.map (fun c => Real.exp (-(((x - c) / (Real.sqrt 2 * width)) ^ 2))),
      (0:ℝ) ≤ b := by
    intro b hb
    obtain ⟨c, -, rfl⟩ := List.mem_map.mp hb
    exact le_of_lt (Real.exp_pos _)
  calc (1:ℝ) = Real.exp (-(((x - x) / (Real.sqrt 2 * width)) ^ 2)) := hself.symm
    _ ≤ _ := List.single_le_sum hnn _ hmem

/-- Shared closed form of the code's score: each term equals
`log((Σ_j K_ij - c) / (n·√(2π)·h))` whenever every kernel sum exceeds `c`. -/
theorem cross_validation_logprob_eq (samples : List ℝ) (width c : ℝ) (hw : 0 < width)
    (hc : 0 < c) (hne : samples ≠ [])
    (hcS : ∀ x ∈ samples, c < kernelSum samples x width) :
    cross_validation_logprob samples width c
      = (samples.map (fun x =>
          Real.log ((kernelSum samples x width - c)
            / ((samples.length : ℝ) * Real.sqrt (2 * Real.pi) * width)))).sum := by
  unfold cross_validation_logprob
  congr 1
  refine List.map_congr_left fun x hx => ?_
  have hS1 : c < kernelSum samples x width := hcS x hx
  have hSpos : 0 < kernelSum samples x width := lt_trans hc hS1
  have hn : 0 < samples.length := List.length_pos.mpr hne
  have hnR : (0:ℝ) < (samples.length : ℝ) := by exact_mod_cast hn
  have hs2p : (0:ℝ) < Real.sqrt (2 * Real.pi) := Real.sqrt_pos.mpr (by positivity)
  show log_evaluation x samples width + Real.log (1 - Real.exp (Real.log c
      - Real.log (width * (samples.length : ℝ) * Real.sqrt (2 * Real.pi))
      - log_evaluation x samples width)) = _
  rw [log_evaluation_eq x samples width hw hne]
  have hSw : 0 < kernelSum samples x width / width := by positivity
  have hApos : (0:ℝ) < (samples.length : ℝ) * Real.sqrt (2 * Real.pi) := by positivity
  have hBpos : (0:ℝ) < width * (samples.length : ℝ) * Real.sqrt (2 * Real.pi) := by positivity
  have hexp : Real.exp (Real.log c
      - Real.log (width * (samples.length : ℝ) * Real.sqrt (2 * Real.pi))
      - (Real.log (kernelSum samples x width / width)
        - Real.log ((samples.length : ℝ) * Real.sqrt (2 * Real.pi))))
      = c / kernelSum samples x width := by
    rw [Real.exp_sub, Real.exp_sub, Real.exp_sub, Real.exp_log hc, Real.exp_log hBpos,
      Real.exp_log hSw, Real.exp_log hApos]
    field_simp
    ring
  rw [hexp]
  have h1c : 1 - c / kernelSum samples x width
      = (kernelSum samples x width - c) / kernelSum samples x width := by
    field_simp
  rw [h1c]
  have hXpos : (0:ℝ) < kernelSum samples x width - c := by linarith
  rw [Real.log_div hSpos.ne' (ne_of_gt hw), Real.log_div hXpos.ne' hSpos.ne',
    Real.log_div hXpos.ne' (by positivity : (0:ℝ) < (samples.length : ℝ)
      * Real.sqrt (2 * Real.pi) * width).ne',
    Real.log_mul (by positivity : ((samples.length : ℝ) * Real.sqrt (2 * Real.pi)) ≠ 0)
      (ne_of_gt hw)]
  ring

/-- Claim C6 (amended): the code's cross-validation score equals
`Σ_i log[ (Σ_j exp(-((s_i-s_j)/(√2 h))²) - 0.99) / (n·√(2π)·h) ]`: the self
term is removed only up to the factor `c = 0.99`, and the normalization is by
`n`, not `n-1`. -/
theorem cross_validation_logprob_closed_form (samples : List ℝ) (width : ℝ)
    (hw : 0 < width) (hne : samples ≠ []) :
    cross_validation_logprob samples width (99/100)
      = (samples.map (fun x =>
          Real.log ((kernelSum samples x width - 99/100)
            / ((samples.length : ℝ) * Real.sqrt (2 * Real.pi) * width)))).sum :=
  cross_validation_logprob_eq samples width (99/100) hw (by norm_num) hne
    (fun x hx => lt_of_lt_of_le (by norm_num) (kernelSum_ge_one samples x width hx))

/-- Claim C6 witness: instantiation at the singleton sample `[0]`, `h = 1`. -/
theorem cross_validation_logprob_closed_form_witness :
    cross_validation_logprob [(0:ℝ)] 1 (99/100)
      = ([(0:ℝ)].map (fun x =>
          Real.log ((kernelSum [(0:ℝ)] x 1 - 99/100)
            / ((([(0:ℝ)].length : ℕ) : ℝ) * Real.sqrt (2 * Real.pi) * 1)))).sum :=
  cross_validation_logprob_closed_form [0] 1 (by norm_num) (by simp)

/-- Claim C6 counterexample to the claim as stated: on the sample `[0, 0]`
with `h = 1` the code's score is `2·log((101/100)/(2√(2π)))` while the claimed
leave-one-out objective is `2·log(1/√(2π))`; they differ (the code's is
strictly smaller). -/
theorem cross_validation_logprob_ne_loo :
    cross_validation_logprob [0, 0] 1 (99/100) ≠ loo_cv_objective [0, 0] 1 := by
  have hs2p : (0:ℝ) < Real.sqrt (2 * Real.pi) := Real.sqrt_pos.mpr (by positivity)
  have hk : ∀ x ∈ ([0, 0] : List ℝ), kernelSum [0, 0] x 1 = 2 := by
    intro x hx
    have hx0 : x = 0 := by
      rcases List.mem_cons.mp hx with h | h
      · exact h
      · simpa using h
    subst hx0
    unfold kernelSum
    norm_num [Real.exp_zero]
  have hL : cross_validation_logprob [0, 0] 1 (99/100)
      = 2 * Real.log ((101/100) / (2 * Real.sqrt (2 * Real.pi))) := by
    rw [cross_validation_logprob_eq [0, 0] 1 (99/100) (by norm_num) (by norm_num) (by simp)
      (fun x hx => by rw [hk x hx]; norm_num)]
    rw [show (([0, 0] : List ℝ).map (fun x =>
          Real.log ((kernelSum [0, 0] x 1 - 99/100)
            / ((([0, 0] : List ℝ).length : ℝ) * Real.sqrt (2 * Real.pi) * 1))))
        = [Real.log ((101/100) / (2 * Real.sqrt (2 * Real.pi))),
           Real.log ((101/100) / (2 * Real.sqrt (2 * Real.pi)))] from by
      simp only [List.map_cons, List.map_nil]
      rw [hk 0 (by simp)]
      norm_num]
    simp only [List.sum_cons, List.sum_nil]
    ring
  have hR : loo_cv_objective [0, 0] 1 = 2 * Real.log (1 / Real.sqrt (2 * Real.pi)) := by
    unfold loo_cv_objective
    simp only [List.length_cons, List.length_nil, Nat.zero_add]
    rw [Finset.sum_range_succ, Finset.sum_range_succ, Finset.sum_range_zero]
    rw [show ((Finset.range 2).erase 0) = {1} from by decide,
      show ((Finset.range 2).erase 1) = {0} from by decide]
    rw [Finset.sum_singleton, Finset.sum_singleton]
    norm_num [Real.exp_zero]
    ring
  rw [hL, hR]
  intro hEq2
  have hlt : Real.log ((101/100) / (2 * Real.sqrt (2 * Real.pi)))
      < Real.log (1 / Real.sqrt (2 * Real.pi)) := by
    apply Real.log_lt_log (by positivity)
    rw [div_lt_div_iff (by positivity) (by positivity)]
    nlinarith
  linarith

namespace UnimodalPdf

/-- Claim C7: for every parameter vector, `posterior` returns the sentinel
`-1e50` (without raising) whenever `s0 > 0 ∧ 0 < k < 20 ∧ 1 < q < 6` fails,
and otherwise the sum of per-sample log-densities minus `n` times the log of
the normalizer. -/
theorem posterior_sentinel (xs : List ℝ) (x0 s0 v f k q : ℝ) :
    (¬ (0 < s0 ∧ (0 < k ∧ k < 20) ∧ (1 < q ∧ q < 6)) →
        posterior xs x0 s0 v f k q = -1e50) ∧
      ((0 < s0 ∧ (0 < k ∧ k < 20) ∧ (1 < q ∧ q < 6)) →
        posterior xs x0 s0 v f k q
          = (xs.map (fun x => log_pdf_model x x0 s0 v f k q)).sum
            - (xs.length : ℝ) * Real.log (norm s0 v f k q)) := by
  constructor
  · intro h
    simp [posterior, h]
  · intro h
    simp [posterior, h]

/-- Claim C7 witness: a violating vector (`s0 = -1`) maps to the sentinel, and
a feasible vector (`s0 = 1, k = 1, q = 2`) to the guarded expression. -/
theorem posterior_sentinel_witness :
    posterior [(0:ℝ)] 0 (-1) 0 0 1 2 = -1e50 ∧
      posterior [(0:ℝ)] 0 1 0 0 1 2
        = ([(0:ℝ)].map (fun x => log_pdf_model x 0 1 0 0 1 2)).sum
          - (([(0:ℝ)].length : ℝ)) * Real.log (norm 1 0 0 1 2) :=
  ⟨(posterior_sentinel [0] 0 (-1) 0 0 1 2).1 (by rintro ⟨h, -⟩; norm_num at h),
   (posterior_sentinel [0] 0 1 0 0 1 2).2 (by norm_num)⟩

end UnimodalPdf

/-- Claim C10: for validated inputs (`0 < fraction < 1`, `len ≥ 2`) we have
`L = int(fraction*n) < n`, so the warning branch returning the full range is
unreachable, the `widths` array is non-empty, and the minimizing index `i`
satisfies `i + L < n`, keeping `s[i+L]` in bounds. -/
theorem sample_hdi_inbounds (sample : List ℚ) (fraction : ℚ) (h0 : 0 < fraction)
    (h1 : fraction < 1) (hn : 2 ≤ sample.length) :
    hdiL fraction (sortQ sample).length < (sortQ sample).length ∧
      0 < (hdiWidths (sortQ sample) (hdiL fraction (sortQ sample).length)).length ∧
      hdiIdx (sortQ sample) (hdiL fraction (sortQ sample).length) +
          hdiL fraction (sortQ sample).length < (sortQ sample).length := by
  have hlen : (sortQ sample).length = sample.length := sortQ_length sample
  have hL : hdiL fraction (sortQ sample).length < (sortQ sample).length :=
    hdiL_lt h0 h1 (by omega)
  have hw : (hdiWidths (sortQ sample) (hdiL fraction (sortQ sample).length)).length
      = (sortQ sample).length - hdiL fraction (sortQ sample).length :=
    hdiWidths_length _ _
  have hwpos : 0 < (hdiWidths (sortQ sample) (hdiL fraction (sortQ sample).length)).length := by
    omega
  have hi := listArgmin_lt_length _ (List.length_pos.mp hwpos)
  rw [hw] at hi
  exact ⟨hL, hwpos, by unfold hdiIdx; omega⟩

theorem pList_succ (lo step : ℚ) (t a m : ℕ) :
    pList lo step t a (m + 1) = perfect lo step t a :: pList lo step t (a + 1) m := by
  unfold pList
  rw [List.range_succ_eq_map, List.map_cons, List.map_map]
  simp only [Nat.add_zero]
  congr 1
  refine List.map_congr_left fun i _ => ?_
  simp only [Function.comp_apply]
  congr 1
  omega

theorem mkLeaves_eq_pList (lo step : ℚ) (c : ℕ) :
    mkLeaves lo step c = pList lo step 0 0 c := by
  unfold mkLeaves pList
  refine List.map_congr_left fun i _ => ?_
  simp [perfect]

theorem mergeStep_pList (lo step : ℚ) (t : ℕ) :
    ∀ (m b : ℕ), mergeStep (pList lo step t (2 * b) (2 * m)) = pList lo step (t + 1) b m := by
  intro m
  induction m with
  | zero => intro b; simp [pList, mergeStep]
  | succ m ih =>
    intro b
    have h1 : 2 * (m + 1) = (2 * m) + 1 + 1 := by ring
    rw [h1, pList_succ, pList_succ]
    rw [mergeStep]
    have h2 : 2 * b + 1 + 1 = 2 * (b + 1) := by ring
    rw [h2, ih (b + 1), pList_succ]
    rfl

theorem iterate_mergeStep_pList (lo step : ℚ) :
    ∀ (k t c : ℕ), mergeStep^[k] (pList lo step t 0 (2 ^ k * c)) = pList lo step (t + k) 0 c := by
  intro k
  induction k with
  | zero => intro t c; simp
  | succ k ih =>
    intro t c
    rw [Function.iterate_succ_apply]
    have h1 : 2 ^ (k + 1) * c = 2 * (2 ^ k * c) := by ring
    have h2 : (0:ℕ) = 2 * 0 := by ring
    rw [h1, h2, mergeStep_pList, ih (t + 1) c]
    congr 1
    omega

/-- `key3` of a perfect subtree: the midpoint of its boundary span.  This is the
exact-arithmetic value of the recursively averaged keys. -/
theorem key3_perfect (lo step : ℚ) :
    ∀ (k j : ℕ), (perfect lo step k j).key3 = lo + (2 * (j:ℚ) + 1) * 2 ^ k * step / 2 := by
  intro k
  induction k with
  | zero =>
    intro j
    rw [show (perfect lo step 0 j).key3
        = (lo + (j:ℚ) * step + (lo + ((j:ℚ) + 1) * step)) / 2 from rfl]
    ring
  | succ k ih =>
    intro j
    rw [show (perfect lo step (k + 1) j).key3
        = ((perfect lo step k (2 * j)).key3 + (perfect lo step k (2 * j + 1)).key3) / 2 from rfl]
    rw [ih (2 * j), ih (2 * j + 1)]
    push_cast
    ring

/-- The bottom-up construction builds exactly the perfect tree of depth
`layers` (for `layers ≥ 1`). -/
theorem buildTree_eq_perfect (layers : ℕ) (hl : 1 ≤ layers) (lo hi : ℚ) :
    buildTree layers lo hi = perfect lo ((hi - lo) / 2 ^ layers) layers 0 := by
  obtain ⟨m, rfl⟩ : ∃ m, layers = m + 1 := ⟨layers - 1, by omega⟩
  unfold buildTree
  rw [mkLeaves_eq_pList]
  have hcount : (2 : ℕ) ^ (m + 1) = 2 ^ m * 2 := by rw [pow_succ]
  rw [hcount]
  have hiter := iterate_mergeStep_pList lo ((hi - lo) / 2 ^ (m+1)) m 0 2
  simp only [Nat.add_eq, Nat.zero_add, Nat.add_zero] at hiter ⊢
  rw [show m + 1 - 1 = m from by omega, hiter]
  have h2 : pList lo ((hi - lo) / 2 ^ (m+1)) m 0 2
      = [perfect lo ((hi - lo) / 2 ^ (m+1)) m 0, perfect lo ((hi - lo) / 2 ^ (m+1)) m 1] := by
    rw [show (2:ℕ) = 1 + 1 from rfl, pList_succ, pList_succ]
    simp [pList]
  rw [h2]
  show BTree.node _ _ ((lo + hi)/2) = perfect lo ((hi - lo) / 2 ^ (m+1)) (m+1) 0
  simp only [perfect, Nat.mul_zero, Nat.mul_one]
  congr 1
  rw [key3_perfect, key3_perfect]
  have hpow : (2:ℚ) ^ (m + 1) = 2 ^ m * 2 := by rw [pow_succ]
  field_simp
  ring

theorem linIdx_mono (lo : ℚ) {step : ℚ} (hstep : 0 < step) {i j : ℕ} (hij : i ≤ j) :
    lo + (i:ℚ) * step ≤ lo + (j:ℚ) * step := by
  have hij' : (i:ℚ) ≤ j := by exact_mod_cast hij
  nlinarith

/-- Descending a perfect subtree with `val > key` comparisons lands in the leaf
whose boundary position is characterized by the two inequalities below. -/
theorem lookup_perfect (lo step : ℚ) (hstep : 0 < step) :
    ∀ (k j : ℕ) (x : ℚ), ∃ r : ℕ, r < 2 ^ k ∧
      BTree.lookup (perfect lo step k j) x = perfect lo step 0 (j * 2 ^ k + r) ∧
      (r = 0 ∨ lo + ((j * 2 ^ k + r : ℕ) : ℚ) * step < x) ∧
      (x ≤ lo + (((j * 2 ^ k + r : ℕ) : ℚ) + 1) * step ∨ r = 2 ^ k - 1) := by
  intro k
  induction k with
  | zero =>
    intro j x
    refine ⟨0, by norm_num, ?_, Or.inl rfl, Or.inr rfl⟩
    simp [perfect, BTree.lookup]
  | succ k ih =>
    intro j x
    have h2p : (2:ℕ) ^ (k + 1) = 2 ^ k * 2 := pow_succ 2 k
    have h2pos : (0:ℕ) < 2 ^ k := Nat.pos_pow_of_pos k (by norm_num)
    have hkeyval : ((perfect lo step k (2 * j)).key3 + (perfect lo step k (2 * j + 1)).key3) / 2
        = lo + (((2 * j + 1) * 2 ^ k : ℕ) : ℚ) * step := by
      rw [key3_perfect, key3_perfect]
      push_cast
      ring
    have hlook : BTree.lookup (perfect lo step (k + 1) j) x
        = if lo + (((2 * j + 1) * 2 ^ k : ℕ) : ℚ) * step < x
            then BTree.lookup (perfect lo step k (2 * j + 1)) x
            else BTree.lookup (perfect lo step k (2 * j)) x := by
      rw [show BTree.lookup (perfect lo step (k + 1) j) x
          = if ((perfect lo step k (2 * j)).key3 + (perfect lo step k (2 * j + 1)).key3) / 2 < x
              then BTree.lookup (perfect lo step k (2 * j + 1)) x
              else BTree.lookup (perfect lo step k (2 * j)) x from rfl]
      rw [hkeyval]
    by_cases hc : lo + (((2 * j + 1) * 2 ^ k : ℕ) : ℚ) * step < x
    · obtain ⟨r', hr'lt, hr'look, hr'left, hr'right⟩ := ih (2 * j + 1) x
      have hidx : (2 * j + 1) * 2 ^ k + r' = j * 2 ^ (k + 1) + (2 ^ k + r') := by
        rw [h2p]; ring
      refine ⟨2 ^ k + r', by omega, ?_, ?_, ?_⟩
      · rw [hlook, if_pos hc, hr'look, hidx]
      · refine Or.inr ?_
        rcases hr'left with h0 | hlt
        · subst h0
          rw [show j * 2 ^ (k + 1) + (2 ^ k + 0) = (2 * j + 1) * 2 ^ k from by rw [h2p]; ring]
          exact hc
        · rw [← hidx]
          exact hlt
      · rcases hr'right with hle | hrmax
        · exact Or.inl (by rw [← hidx]; exact hle)
        · exact Or.inr (by omega)
    · obtain ⟨r', hr'lt, hr'look, hr'left, hr'right⟩ := ih (2 * j) x
      have hidx : 2 * j * 2 ^ k + r' = j * 2 ^ (k + 1) + r' := by
        rw [h2p]; ring
      refine ⟨r', by omega, ?_, ?_, ?_⟩
      · rw [hlook, if_neg hc, hr'look, hidx]
      · rcases hr'left with h0 | hlt
        · exact Or.inl h0
        · exact Or.inr (by rw [← hidx]; exact hlt)
      · rcases hr'right with hle | hrmax
        · exact Or.inl (by rw [← hidx]; exact hle)
        · refine Or.inl ?_
          have hxle : x ≤ lo + (((2 * j + 1) * 2 ^ k : ℕ) : ℚ) * step := not_lt.mp hc
          have hidx2 : (j * 2 ^ (k + 1) + r' : ℕ) + 1 = (2 * j + 1) * 2 ^ k := by
            subst hrmax
            rw [h2p]
            have h1 : 2 ^ k - 1 + 1 = 2 ^ k := Nat.succ_pred_eq_of_pos h2pos
            calc j * (2 ^ k * 2) + (2 ^ k - 1) + 1
                = j * (2 ^ k * 2) + (2 ^ k - 1 + 1) := by omega
              _ = j * (2 ^ k * 2) + 2 ^ k := by rw [h1]
              _ = (2 * j + 1) * 2 ^ k := by ring
          calc x ≤ lo + (((2 * j + 1) * 2 ^ k : ℕ) : ℚ) * step := hxle
            _ = lo + (((j * 2 ^ (k + 1) + r' : ℕ) : ℚ) + 1) * step := by
                rw [← hidx2]; push_cast; ring

theorem findIdx_eq_of_first : ∀ (l : List ℕ) (p : ℕ → Bool) (r : ℕ) (hr : r < l.length),
    p (l.get ⟨r, hr⟩) = true →
    (∀ k (hk : k < l.length), k < r → p (l.get ⟨k, hk⟩) = false) →
    l.findIdx p = r := by
  intro l
  induction l with
  | nil => intro p r hr; simp at hr
  | cons a t ih =>
    intro p r hr hpr hlt
    cases r with
    | zero =>
      simp only [List.get] at hpr
      rw [List.findIdx_cons, hpr]
      rfl
    | succ r =>
      have ha : p a = false := hlt 0 (by simp) (by omega)
      rw [List.findIdx_cons, ha]
      simp only [cond_false]
      have hr' : r < t.length := by simpa using Nat.lt_of_succ_lt_succ hr
      have hmain := ih p r hr' (by simpa using hpr)
        (fun k hk hkr => by simpa using hlt (k + 1) (by simpa using Nat.succ_lt_succ hk) (by omega))
      omega

theorem findIdx_range_eq (p : ℕ → Bool) (n r : ℕ) (hr : r < n) (hpr : p r = true)
    (hlt : ∀ k, k < r → p k = false) : (List.range n).findIdx p = r := by
  refine findIdx_eq_of_first (List.range n) p r (by simpa using hr) ?_ ?_
  · simpa using hpr
  · intro k hk hkr
    simpa using hlt k hkr

/-- Claim C3: for `layers ≥ 1` and `lo < hi`, `lookup(x)` returns the same leaf
bucket as a brute-force linear scan over the `2^layers` equal-width buckets
whenever `lo ≤ x ≤ hi`, and the nearest boundary leaf (bucket `0` or bucket
`2^layers - 1`) when `x` lies outside `[lo, hi]`. -/
theorem binaryTree_lookup_eq_scan (layers : ℕ) (hl : 1 ≤ layers) (lo hi : ℚ)
    (hlohi : lo < hi) (x : ℚ) :
    (lo ≤ x → x ≤ hi → BTree.lookup (buildTree layers lo hi) x
        = bucketLeaf layers lo hi (bruteScan layers lo hi x)) ∧
      (x < lo → BTree.lookup (buildTree layers lo hi) x = bucketLeaf layers lo hi 0) ∧
      (hi < x → BTree.lookup (buildTree layers lo hi) x
        = bucketLeaf layers lo hi (2 ^ layers - 1)) := by
  have hnum : 0 < hi - lo := by linarith
  have hstep : 0 < (hi - lo) / 2 ^ layers := div_pos hnum (by positivity)
  have hend : lo + ((2 ^ layers : ℕ) : ℚ) * ((hi - lo) / 2 ^ layers) = hi := by
    push_cast
    field_simp
  obtain ⟨r, hrlt, hrlook, hrleft, hrright⟩ :=
    lookup_perfect lo ((hi - lo) / 2 ^ layers) hstep layers 0 x
  rw [buildTree_eq_perfect layers hl lo hi]
  simp only [Nat.zero_mul, Nat.zero_add] at hrlook hrleft hrright
  have hbucket : BTree.lookup (perfect lo ((hi - lo) / 2 ^ layers) layers 0) x
      = bucketLeaf layers lo hi r := by
    rw [hrlook]
    rfl
  refine ⟨?_, ?_, ?_⟩
  · intro hxlo hxhi
    have hscan : bruteScan layers lo hi x = r := by
      unfold bruteScan
      refine findIdx_range_eq _ _ r hrlt ?_ ?_
      · refine decide_eq_true ?_
        constructor
        · rcases hrleft with h0 | hlt
          · subst h0
            simpa using hxlo
          · exact le_of_lt hlt
        · rcases hrright with hle | hrmax
          · exact hle
          · subst hrmax
            have hr1 : (2 ^ layers - 1 : ℕ) + 1 = 2 ^ layers := by
              have := Nat.pos_pow_of_pos layers (show 0 < 2 from by norm_num)
              omega
            calc x ≤ hi := hxhi
              _ = lo + ((2 ^ layers : ℕ) : ℚ) * ((hi - lo) / 2 ^ layers) := hend.symm
              _ = lo + (((2 ^ layers - 1 : ℕ) : ℚ) + 1) * ((hi - lo) / 2 ^ layers) := by
                  rw [← hr1]; push_cast; ring
      · intro k hkr
        refine decide_eq_false ?_
        rintro ⟨-, hxk⟩
        have hrne : r ≠ 0 := by omega
        have hltr : lo + (r : ℚ) * ((hi - lo) / 2 ^ layers) < x := by
          rcases hrleft with h0 | hlt
          · exact absurd h0 hrne
          · exact hlt
        have hmono : lo + ((k:ℚ) + 1) * ((hi - lo) / 2 ^ layers) ≤ lo + (r : ℚ) * ((hi - lo) / 2 ^ layers) := by
          have := linIdx_mono lo hstep (show k + 1 ≤ r from by omega)
          push_cast at this
          linarith
        linarith
    rw [hscan, hbucket]
  · intro hxlt
    have hr0 : r = 0 := by
      rcases hrleft with h0 | hlt
      · exact h0
      · exfalso
        have h0le : lo + ((0:ℕ):ℚ) * ((hi - lo) / 2 ^ layers) ≤ lo + (r:ℚ) * ((hi - lo) / 2 ^ layers) := by
          have := linIdx_mono lo hstep (show 0 ≤ r from by omega)
          push_cast at this ⊢
          linarith
        push_cast at h0le
        linarith
    rw [hbucket, hr0]
  · intro hxgt
    have hrmax : r = 2 ^ layers - 1 := by
      rcases hrright with hle | hx
      · exfalso
        have : lo + ((r:ℚ) + 1) * ((hi - lo) / 2 ^ layers) ≤ lo + ((2 ^ layers : ℕ) : ℚ) * ((hi - lo) / 2 ^ layers) := by
          have := linIdx_mono lo hstep (show r + 1 ≤ 2 ^ layers from by omega)
          push_cast at this ⊢
          linarith
        rw [hend] at this
        linarith
      · exact hx
    rw [hbucket, hrmax]

/-- Claim C3 witness: `layers = 2`, `[lo, hi] = [0, 4]`, `x = 3`: the lookup
agrees with the scan, which selects bucket `2 = [2, 3]`. -/
theorem binaryTree_lookup_eq_scan_witness :
    bruteScan 2 0 4 3 = 2 ∧
      BTree.lookup (buildTree 2 0 4) 3 = bucketLeaf 2 0 4 (bruteScan 2 0 4 3) := by
  constructor
  · unfold bruteScan
    norm_num [List.range_succ, List.findIdx_cons]
  · exact (binaryTree_lookup_eq_scan 2 (by norm_num) 0 4 (by norm_num) 3).1
      (by norm_num) (by norm_num)

theorem countP_eq_sum_getD (l : List ℚ) (p : ℚ → Bool) :
    l.countP p = ∑ k in Finset.range l.length, if p (l.getD k 0) then 1 else 0 := by
  induction l with
  | nil => simp
  | cons a t ih =>
    rw [List.countP_cons, List.length_cons, Finset.sum_range_succ']
    simp only [List.getD_cons_succ, List.getD_cons_zero]
    rw [ih]

/-- The window `s[i] .. s[i+L]` of a sorted sample puts `L+1` points in
`[s[i], s[i+L]]`. -/
theorem countIn_window (s : List ℚ) (hs : s.Sorted (· ≤ ·)) (i L : ℕ)
    (hiL : i + L < s.length) :
    L + 1 ≤ countIn s (s.getD i 0) (s.getD (i + L) 0) := by
  unfold countIn
  rw [countP_eq_sum_getD]
  have hsub : Finset.Icc i (i + L) ⊆ Finset.range s.length := by
    intro k hk
    rw [Finset.mem_Icc] at hk
    rw [Finset.mem_range]
    omega
  have hone : ∀ k ∈ Finset.Icc i (i + L),
      (if (decide (s.getD i 0 ≤ s.getD k 0 ∧ s.getD k 0 ≤ s.getD (i + L) 0)) then 1 else 0) = 1 := by
    intro k hk
    rw [Finset.mem_Icc] at hk
    have hklt : k < s.length := by omega
    have hle1 : s.getD i 0 ≤ s.getD k 0 := sorted_getD_mono hs hk.1 hklt
    have hle2 : s.getD k 0 ≤ s.getD (i + L) 0 := sorted_getD_mono hs hk.2 hiL
    rw [if_pos (decide_eq_true ⟨hle1, hle2⟩)]
  calc L + 1 = ∑ k in Finset.Icc i (i + L),
        (if (decide (s.getD i 0 ≤ s.getD k 0 ∧ s.getD k 0 ≤ s.getD (i + L) 0)) then 1 else 0) := by
        rw [Finset.sum_congr rfl hone]
        rw [Finset.sum_const, Nat.card_Icc]
        simp only [smul_eq_mul, mul_one]
        omega
    _ ≤ _ := Finset.sum_le_sum_of_subset hsub

/-- The window starting at the argmin index is no wider than any interval
holding at least `L+1` points of the sorted sample. -/
theorem hdi_window_min (s : List ℚ) (hs : s.Sorted (· ≤ ·)) (L : ℕ)
    (hL : L < s.length) (a b : ℚ) (hcount : L + 1 ≤ countIn s a b) :
    s.getD (hdiIdx s L + L) 0 - s.getD (hdiIdx s L) 0 ≤ b - a := by
  classical
  set T : Finset ℕ := (Finset.range s.length).filter
    (fun k => a ≤ s.getD k 0 ∧ s.getD k 0 ≤ b) with hT
  have hcard : countIn s a b = T.card := by
    rw [countIn, countP_eq_sum_getD, hT, Finset.card_filter]
    refine Finset.sum_congr rfl (fun k _ => ?_)
    by_cases h : a ≤ s.getD k 0 ∧ s.getD k 0 ≤ b <;> simp [h]
  have hTcard : L + 1 ≤ T.card := by omega
  have hTne : T.Nonempty := Finset.card_pos.mp (by omega)
  set i0 := T.min' hTne with hi0
  set m := T.max' hTne with hm
  have hi0T : i0 ∈ T := T.min'_mem hTne
  have hmT : m ∈ T := T.max'_mem hTne
  have hsubIcc : T ⊆ Finset.Icc i0 m := by
    intro k hk
    rw [Finset.mem_Icc]
    exact ⟨T.min'_le k hk, T.le_max' k hk⟩
  have hspread : i0 + L ≤ m := by
    have := Finset.card_le_card hsubIcc
    rw [Nat.card_Icc] at this
    omega
  have hmlt : m < s.length := by
    have := (Finset.mem_filter.mp hmT).1
    rw [Finset.mem_range] at this
    exact this
  have hai0 : a ≤ s.getD i0 0 := (Finset.mem_filter.mp hi0T).2.1
  have hmb : s.getD m 0 ≤ b := (Finset.mem_filter.mp hmT).2.2
  -- the argmin window is no wider than the window starting at i0
  have hwne : hdiWidths s L ≠ [] := by
    have := hdiWidths_length s L
    intro hnil
    rw [hnil] at this
    simp at this
    omega
  have hidx : hdiIdx s L < s.length - L := by
    have := listArgmin_lt_length _ hwne
    rw [hdiWidths_length] at this
    exact this
  have hj : i0 < s.length - L := by omega
  have hmin := listArgmin_getD_le (hdiWidths s L) i0 (by rw [hdiWidths_length]; omega)
  rw [show listArgmin (hdiWidths s L) = hdiIdx s L from rfl] at hmin
  rw [hdiWidths_getD s L _ hidx, hdiWidths_getD s L _ hj] at hmin
  have hstep : s.getD (i0 + L) 0 ≤ s.getD m 0 := sorted_getD_mono hs hspread hmlt
  have : s.getD (hdiIdx s L + L) 0 - s.getD (hdiIdx s L) 0
      ≤ s.getD (i0 + L) 0 - s.getD i0 0 := hmin
  linarith

/-- Claim C1 (amended): for validated inputs, the single-interval solution of
`sample_hdi` is the window `(s[i], s[i+L])`, `L = int(fraction*n)`, minimizing
`s[i+L]-s[i]` over all start indices; it contains at least `L+1` sample points
and is minimal-width among single intervals containing at least `L+1` points. -/
theorem sample_hdi_single_optimal (sample : List ℚ) (fraction : ℚ) (h0 : 0 < fraction)
    (h1 : fraction < 1) (hn : 2 ≤ sample.length) :
    (∀ deX, sample_hdi sample fraction true deX =
        Except.ok (.single (hdiSingle (sortQ sample) (hdiL fraction (sortQ sample).length)))) ∧
      (∀ j, j + hdiL fraction (sortQ sample).length < (sortQ sample).length →
        (sortQ sample).getD (hdiIdx (sortQ sample) (hdiL fraction (sortQ sample).length)
              + hdiL fraction (sortQ sample).length) 0
            - (sortQ sample).getD (hdiIdx (sortQ sample) (hdiL fraction (sortQ sample).length)) 0
          ≤ (sortQ sample).getD (j + hdiL fraction (sortQ sample).length) 0
            - (sortQ sample).getD j 0) ∧
      hdiL fraction (sortQ sample).length + 1
          ≤ countIn (sortQ sample)
            ((sortQ sample).getD (hdiIdx (sortQ sample) (hdiL fraction (sortQ sample).length)) 0)
            ((sortQ sample).getD (hdiIdx (sortQ sample) (hdiL fraction (sortQ sample).length)
              + hdiL fraction (sortQ sample).length) 0) ∧
      (∀ a b : ℚ, hdiL fraction (sortQ sample).length + 1 ≤ countIn (sortQ sample) a b →
        (sortQ sample).getD (hdiIdx (sortQ sample) (hdiL fraction (sortQ sample).length)
              + hdiL fraction (sortQ sample).length) 0
            - (sortQ sample).getD (hdiIdx (sortQ sample) (hdiL fraction (sortQ sample).length)) 0
          ≤ b - a) := by
  have hs := sortQ_sorted sample
  have hlen : (sortQ sample).length = sample.length := sortQ_length sample
  have hL : hdiL fraction (sortQ sample).length < (sortQ sample).length :=
    hdiL_lt h0 h1 (by omega)
  have hwne : hdiWidths (sortQ sample) (hdiL fraction (sortQ sample).length) ≠ [] := by
    have hlw := hdiWidths_length (sortQ sample) (hdiL fraction (sortQ sample).length)
    intro hnil
    rw [hnil] at hlw
    simp at hlw
    omega
  have hidx : hdiIdx (sortQ sample) (hdiL fraction (sortQ sample).length)
      < (sortQ sample).length - hdiL fraction (sortQ sample).length := by
    have := listArgmin_lt_length _ hwne
    rw [hdiWidths_length] at this
    exact this
  refine ⟨?_, ?_, ?_, ?_⟩
  · intro deX
    have hfr : 0 < fraction ∧ fraction < 1 := ⟨h0, h1⟩
    have hn2 : ¬ sample.length < 2 := by omega
    have hnL : ¬ (sortQ sample).length ≤ hdiL fraction (sortQ sample).length := by omega
    simp [sample_hdi, hfr, hn2, hnL]
  · intro j hj
    have hj' : j < (sortQ sample).length - hdiL fraction (sortQ sample).length := by omega
    have hmin := listArgmin_getD_le (hdiWidths (sortQ sample) (hdiL fraction (sortQ sample).length))
      j (by rw [hdiWidths_length]; omega)
    rw [show listArgmin (hdiWidths (sortQ sample) (hdiL fraction (sortQ sample).length))
        = hdiIdx (sortQ sample) (hdiL fraction (sortQ sample).length) from rfl] at hmin
    rw [hdiWidths_getD _ _ _ hidx, hdiWidths_getD _ _ _ hj'] at hmin
    exact hmin
  · exact countIn_window (sortQ sample) hs _ _ (by omega)
  · intro a b hab
    exact hdi_window_min (sortQ sample) hs _ hL a b hab

/-- Claim C1 witness: instantiation at `sample = [0,1,2,10]`, `fraction = 1/2`:
the returned single interval and its point count. -/
theorem sample_hdi_single_optimal_witness :
    sample_hdi [0, 1, 2, 10] (1/2) true (0, 0, 0) =
        Except.ok (.single (hdiSingle (sortQ [0, 1, 2, 10]) (hdiL (1/2) (sortQ [0, 1, 2, 10]).length))) ∧
      hdiL (1/2) (sortQ [0, 1, 2, 10]).length + 1
          ≤ countIn (sortQ [0, 1, 2, 10])
            ((sortQ [0, 1, 2, 10]).getD (hdiIdx (sortQ [0, 1, 2, 10]) (hdiL (1/2) (sortQ [0, 1, 2, 10]).length)) 0)
            ((sortQ [0, 1, 2, 10]).getD (hdiIdx (sortQ [0, 1, 2, 10]) (hdiL (1/2) (sortQ [0, 1, 2, 10]).length)
              + hdiL (1/2) (sortQ [0, 1, 2, 10]).length) 0) :=
  ⟨(sample_hdi_single_optimal [0, 1, 2, 10] (1/2) (by norm_num) (by norm_num) (by norm_num)).1 (0, 0, 0),
   (sample_hdi_single_optimal [0, 1, 2, 10] (1/2) (by norm_num) (by norm_num) (by norm_num)).2.2.1⟩

/-- Claim C1 counterexample to the claim as stated: for `sample = [0,1,2,3]`,
`fraction = 1/2` (so `L = floor(fraction*n) = 2`), the code returns the window
`(0, 2)` of width `2`, yet the single interval `[0, 1]` already contains
`2 = floor(fraction*n)` sample points and has strictly smaller width `1`; so
the returned interval is not the minimal-width single interval containing at
least `floor(fraction*n)` sample points. -/
theorem sample_hdi_single_optimal_counterexample :
    sample_hdi [0, 1, 2, 3] (1/2) true (0, 0, 0) = Except.ok (.single (0, 2)) ∧
      hdiL (1/2) 4 = 2 ∧
      2 ≤ countIn [0, 1, 2, 3] 0 1 ∧
      ((1:ℚ) - 0 < 2 - 0) := by
  have hsorted : ([0, 1, 2, 3] : List ℚ).Sorted (· ≤ ·) := by
    norm_num [List.sorted_cons]
  have hsq : sortQ [0, 1, 2, 3] = [0, 1, 2, 3] := List.Sorted.insertionSort_eq hsorted
  have hL : hdiL (1/2) 4 = 2 := by
    have h2 : pyInt ((1/2 : ℚ) * (4:ℕ)) = 2 := by
      unfold pyInt
      rw [if_pos (by norm_num)]
      norm_num
    unfold hdiL
    rw [h2]
    rfl
  have hw : hdiWidths [0, 1, 2, 3] 2 = [2, 2] := by
    norm_num [hdiWidths, List.range_succ]
  have hargmin : listArgmin [2, 2] = 0 := by
    norm_num [listArgmin]
  refine ⟨?_, hL, ?_, by norm_num⟩
  · have hfr : 0 < (1/2:ℚ) ∧ (1/2:ℚ) < 1 := by norm_num
    simp only [sample_hdi, hfr, not_true_eq_false, if_false, hsq]
    norm_num [hL, hdiSingle, hdiIdx, hw, hargmin]
  · norm_num [countIn, List.countP_cons]

theorem sample_hdi_inbounds_witness :
    hdiL (1/2) (sortQ [0, 1]).length < (sortQ [0, 1]).length ∧
      0 < (hdiWidths (sortQ [0, 1]) (hdiL (1/2) (sortQ [0, 1]).length)).length ∧
      hdiIdx (sortQ [0, 1]) (hdiL (1/2) (sortQ [0, 1]).length) +
          hdiL (1/2) (sortQ [0, 1]).length < (sortQ [0, 1]).length :=
  sample_hdi_inbounds [0, 1] (1/2) (by norm_num) (by norm_num) (by norm_num)
